import Mathlib

/-!
# Verification of the rust-hexdump utility

Shallow embedding of `src/main.rs` (Gamacore/rust-hexdump).

Modelling conventions:
* Rust `u8` bytes are `Fin 256`; Rust `String` output is modelled as `List Char`.
* `slice::chunks(n)` is `chunksOf n` (fuel-based structural recursion so that the
  kernel can evaluate it on concrete inputs).
* Rust's `format!("{:0wx}", n)` (minimum-width, zero-padded lowercase hex) is
  `hexPad w n`, built on core's `Nat.toDigits 16` which renders lowercase hex
  digits exactly like Rust's `{:x}`.
* The `unreachable!()` arm of the pair match is modelled as `Option.none`
  propagating out of `hexdump`, so `hexdump` returns `Option (List Char)`.
* `str::parse::<usize>` is `parseUsize` (optional leading `'+'`, at least one
  ASCII digit, value below `2 ^ 64` = `usize::MAX + 1` on a 64-bit target).
-/

/-- A Rust `u8` byte. -/
abbrev Byte := Fin 256

/-- Fuel-driven worker for `chunksOf`: splits `l` into consecutive runs of at
most `n` elements.  `fuel = l.length` always suffices when `0 < n`. -/
def chunksGo (fuel n : Nat) (l : List α) : List (List α) :=
  match fuel with
  | 0 => []
  | fuel + 1 =>
    match l with
    | [] => []
    | _ :: _ => l.take n :: chunksGo fuel n (l.drop n)

/-- Embedding of Rust `slice::chunks(n)`: the list of consecutive sub-slices of
length `n`, the last one possibly shorter (and never empty). -/
def chunksOf (n : Nat) (l : List α) : List (List α) :=
  chunksGo l.length n l

/-- Embedding of Rust `format!("{:x}", n)`: lowercase hexadecimal digits of `n`,
most significant first, `['0']` for zero.  `Nat.toDigits` uses `Nat.digitChar`,
which agrees with Rust's lowercase hex digit set `0-9a-f`. -/
def hexDigits (n : Nat) : List Char :=
  Nat.toDigits 16 n

/-- Embedding of Rust `format!("{:0wx}", n)`: `hexDigits n` left-padded with
`'0'` to a minimum width of `w` (Rust widths are minimums, long values are not
truncated). -/
def hexPad (w n : Nat) : List Char :=
  List.replicate (w - (hexDigits n).length) '0' ++ hexDigits n

/-- Embedding of the `match pair.len()` in `hexdump` (src/main.rs lines 75-81):
a 2-byte group is rendered byte-swapped (`{:02x}{:02x}` of `pair[1], pair[0]`),
a 1-byte group is rendered as-is, and any other length is `unreachable!()`,
modelled as `none`. -/
def pairHex (pair : List Byte) : Option (List Char) :=
  match pair with
  | [b0, b1] => some (hexPad 2 b1.val ++ hexPad 2 b0.val)
  | [b0] => some (hexPad 2 b0.val)
  | _ => none

/-- Embedding of the inner loop of `hexdump` (src/main.rs lines 74-83): for each
pair, push a space and then the pair's hex text onto the output accumulator;
an `unreachable!()` arm aborts the whole computation. -/
def renderPairs (pairs : List (List Byte)) (acc : List Char) : Option (List Char) :=
  match pairs with
  | [] => some acc
  | p :: ps =>
    match pairHex p with
    | some s => renderPairs ps (acc ++ ' ' :: s)
    | none => none

/-- Embedding of the outer loop of `hexdump` (src/main.rs lines 70-85): for each
`(i, chunk)` of the enumerated 16-byte chunks, push the 8-digit offset `i * 16`,
render the chunk's pairs, then push a newline. -/
def renderLines (rows : List (Nat × List Byte)) (acc : List Char) : Option (List Char) :=
  match rows with
  | [] => some acc
  | (i, chunk) :: rest =>
    match renderPairs (chunksOf 2 chunk) (acc ++ hexPad 8 (i * 16)) with
    | some acc2 => renderLines rest (acc2 ++ ['\n'])
    | none => none

/-- Embedding of `hexdump` (src/main.rs lines 64-88) applied to an in-memory
byte sequence (`read_to_end` from memory always succeeds and yields the whole
sequence).  Returns `none` exactly when an `unreachable!()` arm would panic. -/
def hexdump (buf : List Byte) : Option (List Char) :=
  renderLines (chunksOf 16 buf).enum []

/-- Spec-shaped rendering of one sub-group, total by giving the impossible arm a
junk value; used to state the structural characterisation of `hexdump`. -/
def specPair (pair : List Byte) : List Char :=
  match pair with
  | [b0, b1] => hexPad 2 b1.val ++ hexPad 2 b0.val
  | [b0] => hexPad 2 b0.val
  | _ => []

/-- Spec-shaped body of the output line for chunk `chunk` at line index `i`:
the 8-digit offset followed by one space-prefixed hex token per 2-byte
sub-group.  This follows the spec's wording (section 4.2, steps 2a-2c). -/
def specBody (i : Nat) (chunk : List Byte) : List Char :=
  hexPad 8 (i * 16) ++ ((chunksOf 2 chunk).map (fun p => ' ' :: specPair p)).flatten

/-- Spec-shaped full output line: the body followed by a single newline
(spec section 4.2, step 2d). -/
def specLine (i : Nat) (chunk : List Byte) : List Char :=
  specBody i chunk ++ ['\n']

/-- Spec-shaped list of output lines of the formatter. -/
def specLines (buf : List Byte) : List (List Char) :=
  (chunksOf 16 buf).enum.map (fun p => specLine p.1 p.2)

/-- The two argument-parsing failures of src/main.rs (enum `ArgError`). -/
inductive ArgError where
  | InvalidUsage
  | InvalidLength
deriving DecidableEq, Repr

/-- Embedding of Rust `str::parse::<usize>()` on a 64-bit target: an optional
leading `'+'`, then at least one ASCII digit `0-9`, and the denoted value must
fit in `usize` (below `2 ^ 64`); anything else is a parse error. -/
def parseUsize (s : String) : Option Nat :=
  let ds := match s.data with
    | '+' :: rest => rest
    | l => l
  if ds.isEmpty then none
  else if ds.all (fun c => '0' ≤ c ∧ c ≤ '9') then
    let v := ds.foldl (fun acc c => 10 * acc + (c.toNat - 48)) 0
    if v < 2 ^ 64 then some v else none
  else none

/-- Embedding of `parse_args` (src/main.rs lines 51-61): match on the argument
count; 2 arguments give the filename with no limit, 4 arguments whose second is
`"-n"` parse the third as the limit (`InvalidLength` on parse failure), and
every other shape is `InvalidUsage`. -/
def parse_args (args : List String) : Except ArgError (String × Option Nat) :=
  match args with
  | [_, file] => .ok (file, none)
  | [_, flag, len, file] =>
    if flag = "-n" then
      match parseUsize len with
      | some n => .ok (file, some n)
      | none => .error .InvalidLength
    else .error .InvalidUsage
  | _ => .error .InvalidUsage

/-- Embedding of the read step of `main` (src/main.rs lines 38-44): with a byte
limit `some len`, `file.take(len as u64).read_to_end(&mut buffer)` reads at most
`len` bytes from the start of the file, i.e. `fileContent.take len`; with no
limit the whole file is read. The result is exactly the byte sequence handed to
`hexdump`. -/
def bytesForFormatter (fileContent : List Byte) (maxBytes : Option Nat) : List Byte :=
  match maxBytes with
  | some len => fileContent.take len
  | none => fileContent

/-- Splitting a character list at every occurrence of `sep` (used to state the
spec's "re-splitting the output by newlines" and the per-line token split).
`n` separators yield `n + 1` pieces. -/
def splitOnChar (sep : Char) : List Char → List (List Char)
  | [] => [[]]
  | c :: cs =>
    if c = sep then [] :: splitOnChar sep cs
    else
      match splitOnChar sep cs with
      | [] => [[c]]
      | p :: ps => (c :: p) :: ps

/-- Value of one hexadecimal digit character (decoder side of the round-trip
claim). -/
def hexCharVal (c : Char) : Nat :=
  if '0' ≤ c ∧ c ≤ '9' then c.toNat - 48
  else if 'a' ≤ c ∧ c ≤ 'f' then c.toNat - 87
  else 0

/-- Value of a big-endian string of hexadecimal digit characters. -/
def hexVal (t : List Char) : Nat :=
  t.foldl (fun acc c => 16 * acc + hexCharVal c) 0

/-- Decoding one hex token back into bytes, per the round-trip claim: a 4-digit
token is a byte-swapped 2-byte group, so its two bytes are emitted swapped back
to original order; any other token is a single byte. -/
def decodeToken (t : List Char) : List Nat :=
  if t.length = 4 then [hexVal (t.drop 2), hexVal (t.take 2)]
  else [hexVal t]

/-- Decoding one output line, per the round-trip claim: split at spaces, keep
the non-empty tokens, drop the leading offset token, decode the rest. -/
def decodeLine (line : List Char) : List Nat :=
  match ((splitOnChar ' ' line).filter (fun t => t ≠ [])) with
  | [] => []
  | _ :: toks => (toks.map decodeToken).flatten

/-- Decoding a whole formatter output, per the round-trip claim: split at
newlines and decode each line. -/
def decodeDump (s : List Char) : List Nat :=
  ((splitOnChar '\n' s).map decodeLine).flatten

/-- Lowercase hexadecimal digit characters, as a Boolean predicate. -/
def isHexDigitChar (c : Char) : Bool :=
  ('0' ≤ c ∧ c ≤ '9') || ('a' ≤ c ∧ c ≤ 'f')

example : hexdump [] = some [] := by decide
example : hexdump [0x00, 0x01, 0x02, 0x03] = some "00000000 0100 0302\n".data := by decide
example : parse_args ["program", "file.txt"] = .ok ("file.txt", none) := rfl
example : parse_args ["program", "-n", "100", "file.txt"] = .ok ("file.txt", some 100) := rfl
example : parse_args ["program", "-n", "file.txt"] = .error .InvalidUsage := rfl
example : parse_args ["program", "-n", "not_a_number", "file.txt"] = .error .InvalidLength := rfl

theorem chunksGo_eq_nil (fuel n : Nat) : chunksGo fuel n ([] : List α) = [] := by
  cases fuel <;> rfl

theorem chunksGo_congr {n : Nat} (hn : 0 < n) :
    ∀ fuel₁ fuel₂ (l : List α), l.length ≤ fuel₁ → l.length ≤ fuel₂ →
      chunksGo fuel₁ n l = chunksGo fuel₂ n l := by
  intro fuel₁
  induction fuel₁ with
  | zero =>
    intro fuel₂ l h1 _
    have hl : l = [] := by cases l <;> simp_all
    subst hl
    simp [chunksGo_eq_nil]
  | succ f ih =>
    intro fuel₂ l h1 h2
    cases l with
    | nil => simp [chunksGo_eq_nil]
    | cons x xs =>
      cases fuel₂ with
      | zero => simp at h2
      | succ f₂ =>
        simp only [chunksGo]
        congr 1
        apply ih
        · rw [List.length_drop]
          simp only [List.length_cons] at h1 ⊢
          omega
        · rw [List.length_drop]
          simp only [List.length_cons] at h2 ⊢
          omega

theorem chunksOf_nil (n : Nat) : chunksOf n ([] : List α) = [] := rfl

theorem chunksOf_cons {n : Nat} (hn : 0 < n) (l : List α) (hl : l ≠ []) :
    chunksOf n l = l.take n :: chunksOf n (l.drop n) := by
  cases l with
  | nil => exact absurd rfl hl
  | cons x xs =>
    show chunksGo (xs.length + 1) n (x :: xs) = _
    simp only [chunksGo]
    congr 1
    apply chunksGo_congr hn
    · rw [List.length_drop]
      simp only [List.length_cons]
      omega
    · rfl

theorem chunksGo_flatten {n : Nat} (hn : 0 < n) :
    ∀ fuel (l : List α), l.length ≤ fuel → (chunksGo fuel n l).flatten = l := by
  intro fuel
  induction fuel with
  | zero =>
    intro l h
    have hl : l = [] := by cases l <;> simp_all
    subst hl
    rfl
  | succ f ih =>
    intro l h
    cases l with
    | nil => rfl
    | cons x xs =>
      simp only [chunksGo, List.flatten_cons]
      rw [ih ((x :: xs).drop n) (by rw [List.length_drop]; simp only [List.length_cons] at h ⊢; omega)]
      exact List.take_append_drop n (x :: xs)

theorem chunksOf_flatten {n : Nat} (hn : 0 < n) (l : List α) :
    (chunksOf n l).flatten = l :=
  chunksGo_flatten hn l.length l le_rfl

theorem chunksGo_length {n : Nat} (hn : 0 < n) :
    ∀ fuel (l : List α), l.length ≤ fuel →
      (chunksGo fuel n l).length = (l.length + n - 1) / n := by
  intro fuel
  induction fuel with
  | zero =>
    intro l h
    have hl : l = [] := by cases l <;> simp_all
    subst hl
    simp only [chunksGo_eq_nil, List.length_nil, Nat.zero_add]
    rw [Nat.div_eq_of_lt (by omega)]
  | succ f ih =>
    intro l h
    cases l with
    | nil =>
      simp only [chunksGo_eq_nil, List.length_nil, Nat.zero_add]
      rw [Nat.div_eq_of_lt (by omega)]
    | cons x xs =>
      simp only [chunksGo, List.length_cons]
      rw [ih ((x :: xs).drop n) (by rw [List.length_drop]; simp only [List.length_cons] at h ⊢; omega)]
      rw [List.length_drop]
      simp only [List.length_cons]
      have harg : xs.length + 1 + n - 1 = xs.length + 1 - 1 + n := by omega
      rw [harg, Nat.add_div_right _ hn]
      rcases le_or_lt n (xs.length + 1) with hle | hlt
      · have h1 : xs.length + 1 - n + n - 1 = xs.length + 1 - 1 := by omega
        rw [h1]
      · have h0 : xs.length + 1 - n = 0 := by omega
        rw [h0, Nat.div_eq_of_lt (by omega), Nat.div_eq_of_lt (by omega)]

theorem chunksOf_length {n : Nat} (hn : 0 < n) (l : List α) :
    (chunksOf n l).length = (l.length + n - 1) / n :=
  chunksGo_length hn l.length l le_rfl

theorem chunksGo_ne_nil {n : Nat} :
    ∀ {fuel : Nat} {l : List α}, l ≠ [] → l.length ≤ fuel → chunksGo fuel n l ≠ [] := by
  intro fuel l hl h
  cases fuel with
  | zero =>
    cases l with
    | nil => exact absurd rfl hl
    | cons x xs => simp at h
  | succ f =>
    cases l with
    | nil => exact absurd rfl hl
    | cons x xs => simp [chunksGo]

theorem chunksGo_mem {n : Nat} (hn : 0 < n) :
    ∀ fuel (l c : List α), l.length ≤ fuel → c ∈ chunksGo fuel n l →
      c ≠ [] ∧ c.length ≤ n := by
  intro fuel
  induction fuel with
  | zero =>
    intro l c h hc
    have hl : l = [] := by cases l <;> simp_all
    subst hl
    rw [chunksGo_eq_nil] at hc
    simp at hc
  | succ f ih =>
    intro l c h hc
    cases l with
    | nil =>
      rw [chunksGo_eq_nil] at hc
      simp at hc
    | cons x xs =>
      simp only [chunksGo, List.mem_cons] at hc
      rcases hc with rfl | hc
      · constructor
        · intro hnil
          rw [List.take_eq_nil_iff] at hnil
          rcases hnil with h0 | h0
          · omega
          · simp at h0
        · rw [List.length_take]
          exact Nat.min_le_left _ _
      · exact ih _ _ (by rw [List.length_drop]; simp only [List.length_cons] at h ⊢; omega) hc

theorem chunksGo_dropLast_mem {n : Nat} (hn : 0 < n) :
    ∀ fuel (l c : List α), l.length ≤ fuel →
      c ∈ (chunksGo fuel n l).dropLast → c.length = n := by
  intro fuel
  induction fuel with
  | zero =>
    intro l c h hc
    have hl : l = [] := by cases l <;> simp_all
    subst hl
    rw [chunksGo_eq_nil] at hc
    simp at hc
  | succ f ih =>
    intro l c h hc
    cases l with
    | nil =>
      rw [chunksGo_eq_nil] at hc
      simp at hc
    | cons x xs =>
      simp only [chunksGo] at hc
      by_cases hd : (x :: xs).drop n = []
      · rw [hd, chunksGo_eq_nil] at hc
        simp at hc
      · have hrest : chunksGo f n ((x :: xs).drop n) ≠ [] :=
          chunksGo_ne_nil hd
            (by rw [List.length_drop]; simp only [List.length_cons] at h ⊢; omega)
        rw [List.dropLast_cons_of_ne_nil hrest] at hc
        rcases List.mem_cons.mp hc with rfl | hc
        · rw [List.length_take]
          have hlt : n < (x :: xs).length := by
            by_contra hcon
            exact hd (List.drop_eq_nil_iff.mpr (by omega))
          omega
        · exact ih _ _ (by rw [List.length_drop]; simp only [List.length_cons] at h ⊢; omega) hc

theorem chunksOf_mem {n : Nat} (hn : 0 < n) {l c : List α} (hc : c ∈ chunksOf n l) :
    c ≠ [] ∧ c.length ≤ n :=
  chunksGo_mem hn l.length l c le_rfl hc

theorem chunksOf_dropLast_mem {n : Nat} (hn : 0 < n) {l c : List α}
    (hc : c ∈ (chunksOf n l).dropLast) : c.length = n :=
  chunksGo_dropLast_mem hn l.length l c le_rfl hc

theorem snd_mem_of_mem_enum {l : List α} {x : Nat × α} (hx : x ∈ l.enum) : x.2 ∈ l := by
  have h : x.2 ∈ l.enum.map Prod.snd := List.mem_map_of_mem Prod.snd hx
  rw [List.enum_eq_enumFrom, List.enumFrom_map_snd] at h
  exact h

theorem pairHex_eq_specPair {p : List Byte} (hp : p.length = 1 ∨ p.length = 2) :
    pairHex p = some (specPair p) := by
  rcases p with _ | ⟨b0, _ | ⟨b1, _ | ⟨b2, t⟩⟩⟩
  · simp at hp
  · rfl
  · rfl
  · simp only [List.length_cons] at hp
    omega

theorem renderPairs_eq :
    ∀ (pairs : List (List Byte)) (acc : List Char),
      (∀ p ∈ pairs, pairHex p = some (specPair p)) →
      renderPairs pairs acc =
        some (acc ++ (pairs.map (fun p => ' ' :: specPair p)).flatten) := by
  intro pairs
  induction pairs with
  | nil =>
    intro acc h
    simp [renderPairs]
  | cons p ps ih =>
    intro acc h
    have hp : pairHex p = some (specPair p) := h p (List.mem_cons_self p ps)
    simp only [renderPairs, hp]
    rw [ih _ (fun q hq => h q (List.mem_cons_of_mem p hq))]
    simp [List.append_assoc]

theorem renderLines_eq :
    ∀ (rows : List (Nat × List Byte)) (acc : List Char),
      (∀ r ∈ rows, ∀ p ∈ chunksOf 2 r.2, pairHex p = some (specPair p)) →
      renderLines rows acc =
        some (acc ++ (rows.map (fun r => specLine r.1 r.2)).flatten) := by
  intro rows
  induction rows with
  | nil =>
    intro acc h
    simp [renderLines]
  | cons r rs ih =>
    intro acc h
    obtain ⟨i, chunk⟩ := r
    have h1 : renderPairs (chunksOf 2 chunk) (acc ++ hexPad 8 (i * 16)) =
        some ((acc ++ hexPad 8 (i * 16)) ++
          ((chunksOf 2 chunk).map (fun p => ' ' :: specPair p)).flatten) :=
      renderPairs_eq _ _ (fun p hp => h (i, chunk) (List.mem_cons_self _ _) p hp)
    simp only [renderLines, h1]
    rw [ih _ (fun q hq => h q (List.mem_cons_of_mem _ hq))]
    simp [specLine, specBody, List.append_assoc]

theorem hexdump_eq_specLines (buf : List Byte) :
    hexdump buf = some (specLines buf).flatten := by
  have hcond : ∀ r ∈ (chunksOf 16 buf).enum, ∀ p ∈ chunksOf 2 r.2,
      pairHex p = some (specPair p) := by
    intro r hr p hp
    have h2 := chunksOf_mem (by omega) hp
    apply pairHex_eq_specPair
    have h0 : 0 < p.length := List.length_pos.mpr h2.1
    have h1 : p.length ≤ 2 := h2.2
    omega
  show renderLines (chunksOf 16 buf).enum [] = _
  rw [renderLines_eq _ _ hcond]
  simp [specLines]

theorem digitChar_facts :
    ∀ k, k < 16 → Nat.digitChar k ≠ ' ' ∧ Nat.digitChar k ≠ '\n' ∧
      isHexDigitChar (Nat.digitChar k) = true := by decide

theorem toDigitsCore_mem :
    ∀ (fuel n : Nat) (ds : List Char) (c : Char), c ∈ Nat.toDigitsCore 16 fuel n ds →
      (∃ k, k < 16 ∧ c = Nat.digitChar k) ∨ c ∈ ds := by
  intro fuel
  induction fuel with
  | zero =>
    intro n ds c hc
    exact Or.inr hc
  | succ f ih =>
    intro n ds c hc
    simp only [Nat.toDigitsCore] at hc
    by_cases h0 : n / 16 = 0
    · rw [if_pos h0] at hc
      rcases List.mem_cons.mp hc with rfl | hc
      · exact Or.inl ⟨n % 16, Nat.mod_lt n (by omega), rfl⟩
      · exact Or.inr hc
    · rw [if_neg h0] at hc
      rcases ih _ _ _ hc with h | h
      · exact Or.inl h
      · rcases List.mem_cons.mp h with rfl | hc2
        · exact Or.inl ⟨n % 16, Nat.mod_lt n (by omega), rfl⟩
        · exact Or.inr hc2

theorem toDigitsCore_length_ge :
    ∀ (fuel n : Nat) (ds : List Char),
      ds.length ≤ (Nat.toDigitsCore 16 fuel n ds).length := by
  intro fuel
  induction fuel with
  | zero =>
    intro n ds
    exact le_rfl
  | succ f ih =>
    intro n ds
    simp only [Nat.toDigitsCore]
    by_cases h0 : n / 16 = 0
    · rw [if_pos h0]
      simp
    · rw [if_neg h0]
      have h := ih (n / 16) (Nat.digitChar (n % 16) :: ds)
      simp only [List.length_cons] at h
      omega

theorem toDigitsCore_length_pos :
    ∀ (fuel n : Nat) (ds : List Char), 0 < fuel →
      ds.length + 1 ≤ (Nat.toDigitsCore 16 fuel n ds).length := by
  intro fuel n ds hfuel
  cases fuel with
  | zero => omega
  | succ f =>
    simp only [Nat.toDigitsCore]
    by_cases h0 : n / 16 = 0
    · rw [if_pos h0]
      simp
    · rw [if_neg h0]
      have h := toDigitsCore_length_ge f (n / 16) (Nat.digitChar (n % 16) :: ds)
      simp only [List.length_cons] at h
      omega

theorem toDigitsCore_length_le :
    ∀ (fuel n k : Nat) (ds : List Char), 0 < k → n < 16 ^ k →
      (Nat.toDigitsCore 16 fuel n ds).length ≤ k + ds.length := by
  intro fuel
  induction fuel with
  | zero =>
    intro n k ds hk _
    simp only [Nat.toDigitsCore]
    omega
  | succ f ih =>
    intro n k ds hk hn
    simp only [Nat.toDigitsCore]
    by_cases h0 : n / 16 = 0
    · rw [if_pos h0]
      simp only [List.length_cons]
      omega
    · rw [if_neg h0]
      have hge : 16 ≤ n := by
        by_contra hcon
        exact h0 (Nat.div_eq_of_lt (by omega))
      have hk2 : 2 ≤ k := by
        by_contra hcon
        have hk1 : k = 1 := by omega
        rw [hk1, pow_one] at hn
        omega
      have hdiv : n / 16 < 16 ^ (k - 1) := by
        rw [Nat.div_lt_iff_lt_mul (by omega : (0:Nat) < 16)]
        calc n < 16 ^ k := hn
        _ = 16 ^ (k - 1) * 16 := by
              rw [← pow_succ]
              congr 1
              omega
      have h := ih (n / 16) (k - 1) (Nat.digitChar (n % 16) :: ds) (by omega) hdiv
      simp only [List.length_cons] at h
      omega

theorem hexDigits_mem {n : Nat} {c : Char} (hc : c ∈ hexDigits n) :
    ∃ k, k < 16 ∧ c = Nat.digitChar k := by
  rcases toDigitsCore_mem (n + 1) n [] c hc with h | h
  · exact h
  · simp at h

theorem hexDigits_length_pos (n : Nat) : 0 < (hexDigits n).length := by
  have h := toDigitsCore_length_pos (n + 1) n [] (by omega)
  simp only [List.length_nil] at h
  exact h

theorem hexDigits_length_le {n k : Nat} (hk : 0 < k) (hn : n < 16 ^ k) :
    (hexDigits n).length ≤ k := by
  have h := toDigitsCore_length_le (n + 1) n k [] hk hn
  simp only [List.length_nil] at h
  unfold hexDigits Nat.toDigits
  omega

theorem hexPad_mem_digitChar {w n : Nat} {c : Char} (hc : c ∈ hexPad w n) :
    ∃ k, k < 16 ∧ c = Nat.digitChar k := by
  rcases List.mem_append.mp hc with h | h
  · have h0 : c = '0' := List.eq_of_mem_replicate h
    exact ⟨0, by omega, h0⟩
  · exact hexDigits_mem h

theorem hexPad_not_space {w n : Nat} : ' ' ∉ hexPad w n := by
  intro hc
  obtain ⟨k, hk, he⟩ := hexPad_mem_digitChar hc
  exact (digitChar_facts k hk).1 he.symm

theorem hexPad_not_newline {w n : Nat} : '\n' ∉ hexPad w n := by
  intro hc
  obtain ⟨k, hk, he⟩ := hexPad_mem_digitChar hc
  exact (digitChar_facts k hk).2.1 he.symm

theorem hexPad_hexChars {w n : Nat} {c : Char} (hc : c ∈ hexPad w n) :
    isHexDigitChar c = true := by
  obtain ⟨k, hk, he⟩ := hexPad_mem_digitChar hc
  rw [he]
  exact (digitChar_facts k hk).2.2

theorem hexPad_ne_nil {w n : Nat} : hexPad w n ≠ [] := by
  intro h
  have h1 := hexDigits_length_pos n
  have h2 : (hexPad w n).length = 0 := by rw [h]; rfl
  unfold hexPad at h2
  rw [List.length_append, List.length_replicate] at h2
  omega

theorem hexPad_length_of_le {w n : Nat} (h : (hexDigits n).length ≤ w) :
    (hexPad w n).length = w := by
  unfold hexPad
  rw [List.length_append, List.length_replicate]
  omega

theorem hexPad_eight_length {n : Nat} (hn : n < 2 ^ 32) : (hexPad 8 n).length = 8 := by
  apply hexPad_length_of_le
  apply hexDigits_length_le (by omega)
  calc n < 2 ^ 32 := hn
  _ = 16 ^ 8 := by norm_num

set_option maxRecDepth 10000 in
theorem bytePad_facts :
    ∀ b : Fin 256, (hexPad 2 b.val).length = 2 ∧ hexVal (hexPad 2 b.val) = b.val := by
  decide

theorem splitOnChar_no_sep {sep : Char} :
    ∀ {l : List Char}, sep ∉ l → splitOnChar sep l = [l] := by
  intro l
  induction l with
  | nil =>
    intro _
    rfl
  | cons c cs ih =>
    intro h
    have hc : c ≠ sep := fun he => h (he ▸ List.mem_cons_self c cs)
    unfold splitOnChar
    rw [if_neg hc, ih (fun hm => h (List.mem_cons_of_mem c hm))]

theorem splitOnChar_append_cons {sep : Char} :
    ∀ {l rest : List Char}, sep ∉ l →
      splitOnChar sep (l ++ sep :: rest) = l :: splitOnChar sep rest := by
  intro l
  induction l with
  | nil =>
    intro rest _
    show splitOnChar sep (sep :: rest) = [] :: splitOnChar sep rest
    rw [splitOnChar]
    rw [if_pos rfl]
  | cons c cs ih =>
    intro rest h
    have hc : c ≠ sep := fun he => h (he ▸ List.mem_cons_self c cs)
    show splitOnChar sep (c :: (cs ++ sep :: rest)) = _
    rw [splitOnChar]
    rw [if_neg hc, ih (fun hm => h (List.mem_cons_of_mem c hm))]

theorem splitOnChar_lines {sep : Char} :
    ∀ (bodies : List (List Char)), (∀ b ∈ bodies, sep ∉ b) →
      splitOnChar sep ((bodies.map (fun b => b ++ [sep])).flatten) = bodies ++ [[]] := by
  intro bodies
  induction bodies with
  | nil =>
    intro _
    rfl
  | cons b bs ih =>
    intro h
    simp only [List.map_cons, List.flatten_cons]
    rw [List.append_assoc]
    rw [show ([sep] ++ (bs.map (fun x => x ++ [sep])).flatten) =
        sep :: (bs.map (fun x => x ++ [sep])).flatten from rfl]
    rw [splitOnChar_append_cons (h b (List.mem_cons_self b bs))]
    rw [ih (fun x hx => h x (List.mem_cons_of_mem b hx))]
    rfl

theorem splitOnChar_tokens {sep : Char} :
    ∀ (toks : List (List Char)) (pre : List Char), sep ∉ pre → (∀ t ∈ toks, sep ∉ t) →
      splitOnChar sep (pre ++ (toks.map (fun x => sep :: x)).flatten) = pre :: toks := by
  intro toks
  induction toks with
  | nil =>
    intro pre h1 _
    rw [List.map_nil, List.flatten_nil, List.append_nil]
    exact splitOnChar_no_sep h1
  | cons t ts ih =>
    intro pre h1 h2
    simp only [List.map_cons, List.flatten_cons]
    rw [show ((sep :: t) ++ (ts.map (fun x => sep :: x)).flatten) =
        sep :: (t ++ (ts.map (fun x => sep :: x)).flatten) from rfl]
    rw [splitOnChar_append_cons h1]
    rw [ih t (h2 t (List.mem_cons_self t ts)) (fun x hx => h2 x (List.mem_cons_of_mem t hx))]

theorem specPair_not_space (p : List Byte) : ' ' ∉ specPair p := by
  intro h
  rcases p with _ | ⟨b0, _ | ⟨b1, _ | ⟨b2, t⟩⟩⟩
  · simp [specPair] at h
  · simp only [specPair] at h
    exact hexPad_not_space h
  · simp only [specPair] at h
    rcases List.mem_append.mp h with h1 | h1
    · exact hexPad_not_space h1
    · exact hexPad_not_space h1
  · simp [specPair] at h

theorem specPair_not_newline (p : List Byte) : '\n' ∉ specPair p := by
  intro h
  rcases p with _ | ⟨b0, _ | ⟨b1, _ | ⟨b2, t⟩⟩⟩
  · simp [specPair] at h
  · simp only [specPair] at h
    exact hexPad_not_newline h
  · simp only [specPair] at h
    rcases List.mem_append.mp h with h1 | h1
    · exact hexPad_not_newline h1
    · exact hexPad_not_newline h1
  · simp [specPair] at h

theorem specPair_ne_nil {p : List Byte} (hp : p.length = 1 ∨ p.length = 2) :
    specPair p ≠ [] := by
  rcases p with _ | ⟨b0, _ | ⟨b1, _ | ⟨b2, t⟩⟩⟩
  · simp at hp
  · simp only [specPair]
    exact hexPad_ne_nil
  · simp only [specPair]
    intro h
    exact hexPad_ne_nil (List.append_eq_nil.mp h).1
  · simp only [List.length_cons] at hp
    omega

theorem specBody_not_newline (i : Nat) (chunk : List Byte) : '\n' ∉ specBody i chunk := by
  intro h
  rcases List.mem_append.mp h with h1 | h1
  · exact hexPad_not_newline h1
  · obtain ⟨l, hl, hcl⟩ := List.mem_flatten.mp h1
    obtain ⟨p, hp, rfl⟩ := List.mem_map.mp hl
    rcases List.mem_cons.mp hcl with he | he
    · exact absurd he (by decide)
    · exact specPair_not_newline p he

theorem decodeToken_specPair {p : List Byte} (hp : p.length = 1 ∨ p.length = 2) :
    decodeToken (specPair p) = p.map Fin.val := by
  rcases p with _ | ⟨b0, _ | ⟨b1, _ | ⟨b2, t⟩⟩⟩
  · simp at hp
  · have h2 := (bytePad_facts b0).1
    simp only [specPair, decodeToken]
    rw [if_neg (by omega)]
    rw [(bytePad_facts b0).2]
    rfl
  · have h20 := (bytePad_facts b0).1
    have h21 := (bytePad_facts b1).1
    simp only [specPair, decodeToken]
    rw [if_pos (by rw [List.length_append]; omega)]
    rw [List.take_left' h21, List.drop_left' h21]
    rw [(bytePad_facts b0).2, (bytePad_facts b1).2]
    rfl
  · simp only [List.length_cons] at hp
    omega

theorem decodeLine_specBody (i : Nat) (chunk : List Byte) :
    decodeLine (specBody i chunk) = chunk.map Fin.val := by
  have hmm : ((chunksOf 2 chunk).map (fun p => ' ' :: specPair p)) =
      ((chunksOf 2 chunk).map specPair).map (fun x => ' ' :: x) := by
    rw [List.map_map]
    rfl
  have hsplit : splitOnChar ' ' (specBody i chunk) =
      hexPad 8 (i * 16) :: (chunksOf 2 chunk).map specPair := by
    show splitOnChar ' '
        (hexPad 8 (i * 16) ++ ((chunksOf 2 chunk).map (fun p => ' ' :: specPair p)).flatten) = _
    rw [hmm]
    apply splitOnChar_tokens
    · exact hexPad_not_space
    · intro x hx
      obtain ⟨p, hp, rfl⟩ := List.mem_map.mp hx
      exact specPair_not_space p
  have hfilter : ((splitOnChar ' ' (specBody i chunk)).filter (fun x => x ≠ [])) =
      hexPad 8 (i * 16) :: (chunksOf 2 chunk).map specPair := by
    rw [hsplit]
    apply List.filter_eq_self.mpr
    intro x hx
    rcases List.mem_cons.mp hx with rfl | hx
    · simpa using hexPad_ne_nil
    · obtain ⟨p, hp, rfl⟩ := List.mem_map.mp hx
      have h12 := chunksOf_mem (by omega) hp
      have hlen : p.length = 1 ∨ p.length = 2 := by
        have hpos := List.length_pos.mpr h12.1
        have := h12.2
        omega
      simpa using specPair_ne_nil hlen
  show (match ((splitOnChar ' ' (specBody i chunk)).filter (fun x => x ≠ [])) with
    | [] => ([] : List Nat)
    | _ :: toks => (toks.map decodeToken).flatten) = chunk.map Fin.val
  rw [hfilter]
  show (((chunksOf 2 chunk).map specPair).map decodeToken).flatten = chunk.map Fin.val
  rw [List.map_map]
  have hpt : ((chunksOf 2 chunk).map (decodeToken ∘ specPair)) =
      (chunksOf 2 chunk).map (List.map Fin.val) := by
    apply List.map_congr_left
    intro p hp
    have h12 := chunksOf_mem (by omega) hp
    have hlen : p.length = 1 ∨ p.length = 2 := by
      have hpos := List.length_pos.mpr h12.1
      have := h12.2
      omega
    exact decodeToken_specPair hlen
  rw [hpt, ← List.map_flatten, chunksOf_flatten (by omega)]

theorem specLines_eq_bodies (buf : List Byte) :
    specLines buf =
      ((chunksOf 16 buf).enum.map (fun r => specBody r.1 r.2)).map (fun b => b ++ ['\n']) := by
  unfold specLines specLine
  rw [List.map_map]
  rfl

theorem decodeDump_specLines (buf : List Byte) :
    decodeDump (specLines buf).flatten = buf.map Fin.val := by
  have hbodies : ∀ b ∈ (chunksOf 16 buf).enum.map (fun r => specBody r.1 r.2), '\n' ∉ b := by
    intro b hb
    obtain ⟨r, hr, rfl⟩ := List.mem_map.mp hb
    exact specBody_not_newline r.1 r.2
  have hsplit : splitOnChar '\n' (specLines buf).flatten =
      ((chunksOf 16 buf).enum.map (fun r => specBody r.1 r.2)) ++ [[]] := by
    rw [specLines_eq_bodies]
    exact splitOnChar_lines _ hbodies
  unfold decodeDump
  rw [hsplit, List.map_append, List.flatten_append]
  have hlast : ([[]] : List (List Char)).map decodeLine = [[]] := rfl
  rw [hlast]
  rw [List.map_map]
  have hpt : ((chunksOf 16 buf).enum.map (decodeLine ∘ fun r => specBody r.1 r.2)) =
      ((chunksOf 16 buf).enum.map (fun r => r.2.map Fin.val)) := by
    apply List.map_congr_left
    intro r _
    exact decodeLine_specBody r.1 r.2
  rw [hpt]
  have hsnd : ((chunksOf 16 buf).enum.map (fun r => r.2.map Fin.val)) =
      ((chunksOf 16 buf).enum.map Prod.snd).map (List.map Fin.val) := by
    rw [List.map_map]
    rfl
  rw [hsnd, List.enum_eq_enumFrom, List.enumFrom_map_snd, ← List.map_flatten,
    chunksOf_flatten (by omega)]
  simp

theorem splitOnChar_specLines (buf : List Byte) :
    splitOnChar '\n' (specLines buf).flatten =
      ((chunksOf 16 buf).enum.map (fun r => specBody r.1 r.2)) ++ [[]] := by
  rw [specLines_eq_bodies]
  apply splitOnChar_lines
  intro b hb
  obtain ⟨r, hr, rfl⟩ := List.mem_map.mp hb
  exact specBody_not_newline r.1 r.2

theorem count_newline_flatten :
    ∀ (bodies : List (List Char)), (∀ b ∈ bodies, '\n' ∉ b) →
      ((bodies.map (fun b => b ++ ['\n'])).flatten).count '\n' = bodies.length := by
  intro bodies
  induction bodies with
  | nil =>
    intro _
    rfl
  | cons b bs ih =>
    intro h
    simp only [List.map_cons, List.flatten_cons, List.count_append, List.length_cons]
    rw [ih (fun x hx => h x (List.mem_cons_of_mem b hx))]
    rw [List.count_eq_zero_of_not_mem (h b (List.mem_cons_self b bs))]
    have hone : List.count '\n' ['\n'] = 1 := by decide
    omega

theorem specLines_flatten_count (buf : List Byte) :
    ((specLines buf).flatten).count '\n' = (chunksOf 16 buf).length := by
  rw [specLines_eq_bodies]
  rw [count_newline_flatten _ (by
    intro b hb
    obtain ⟨r, hr, rfl⟩ := List.mem_map.mp hb
    exact specBody_not_newline r.1 r.2)]
  rw [List.length_map, List.enum_eq_enumFrom, List.enumFrom_length]

/-- Claim C1: for every byte sequence, taking the formatter's output, splitting
it by newlines, dropping each line's offset token, parsing the remaining hex
tokens, and swapping each 2-byte group's two bytes back to original order
(keeping a final single-byte token unchanged) recovers the original byte
sequence exactly. -/
theorem C1_round_trip (buf : List Byte) (s : List Char) (hs : hexdump buf = some s) :
    decodeDump s = buf.map Fin.val := by
  have h2 : (specLines buf).flatten = s :=
    Option.some.inj ((hexdump_eq_specLines buf).symm.trans hs)
  rw [← h2]
  exact decodeDump_specLines buf

/-- Witness for C1 at the spec's concrete scenario `[0x00, 0x01, 0x02, 0x03]`. -/
theorem C1_round_trip_witness :
    decodeDump "00000000 0100 0302\n".data =
      List.map Fin.val ([0x00, 0x01, 0x02, 0x03] : List Byte) :=
  C1_round_trip [0x00, 0x01, 0x02, 0x03] "00000000 0100 0302\n".data (by decide)

/-- Claim C2: for every input byte sequence, the output consists of one line per
16-byte chunk; each line is the offset, then for each sub-group of at most 2
bytes one leading space followed by the swapped 4-digit rendering of a 2-byte
group `[b0, b1]` (2 digits of `b1` then 2 digits of `b0`) or the 2-digit
rendering of a final 1-byte group, then a single terminating newline with no
other trailing separator (`specPair`, `specBody`, `specLine` transcribe exactly
that spec wording). -/
theorem C2_group_rendering (buf : List Byte) :
    hexdump buf = some (specLines buf).flatten :=
  hexdump_eq_specLines buf

/-- Claim C8: the formatter never fails on in-memory input: for every byte
sequence (including the empty one), `hexdump` returns a successful result. -/
theorem C8_formatter_total (buf : List Byte) : (hexdump buf).isSome = true := by
  rw [hexdump_eq_specLines]
  rfl

/-- Claim C10: the `unreachable!()` branch in `hexdump`'s sub-group match is
never executed: every sub-group produced by splitting a chunk into runs of 2
has length exactly 1 or 2, so the pair renderer never hits its panicking arm. -/
theorem C10_no_unreachable (buf : List Byte) (chunk p : List Byte)
    (_hc : chunk ∈ chunksOf 16 buf) (hp : p ∈ chunksOf 2 chunk) :
    (p.length = 1 ∨ p.length = 2) ∧ pairHex p ≠ none := by
  have h2 := chunksOf_mem (by omega) hp
  have hlen : p.length = 1 ∨ p.length = 2 := by
    have hpos := List.length_pos.mpr h2.1
    have := h2.2
    omega
  refine ⟨hlen, ?_⟩
  rw [pairHex_eq_specPair hlen]
  simp

/-- Witness for C10 on the concrete input `[0, 1, 2]`, whose single chunk
splits into the sub-groups `[0, 1]` and `[2]`. -/
theorem C10_no_unreachable_witness :
    ((([2] : List Byte)).length = 1 ∨ (([2] : List Byte)).length = 2) ∧
      pairHex [2] ≠ none :=
  C10_no_unreachable [0, 1, 2] [0, 1, 2] [2] (by decide) (by decide)

/-- Claim C9: truncation happens before formatting: with `maxBytes = some len`
the byte sequence handed to the formatter by `main` is `fileContent.take len`, a
sequence of length at most `len` and an initial segment of the file content;
with no limit it is the entire file content. -/
theorem C9_truncation (fileContent : List Byte) (maxBytes : Option Nat) :
    (maxBytes = none → bytesForFormatter fileContent maxBytes = fileContent) ∧
    (∀ len, maxBytes = some len →
      bytesForFormatter fileContent maxBytes = fileContent.take len ∧
      (bytesForFormatter fileContent maxBytes).length ≤ len ∧
      ∃ t, bytesForFormatter fileContent maxBytes ++ t = fileContent) := by
  constructor
  · intro h
    subst h
    rfl
  · intro len h
    subst h
    refine ⟨rfl, ?_, ⟨fileContent.drop len, ?_⟩⟩
    · show (fileContent.take len).length ≤ len
      rw [List.length_take]
      exact Nat.min_le_left _ _
    · exact List.take_append_drop len fileContent

/-- Witness for C9 on the concrete file content `[1, 2, 3]` with limit 2. -/
theorem C9_truncation_witness :
    bytesForFormatter ([1, 2, 3] : List Byte) (some 2) = ([1, 2, 3] : List Byte).take 2 ∧
    ∃ t, bytesForFormatter ([1, 2, 3] : List Byte) (some 2) ++ t = [1, 2, 3] := by
  have h := (C9_truncation [1, 2, 3] (some 2)).2 2 rfl
  exact ⟨h.1, h.2.2⟩

/-- Claim C7: `parse_args` is total: every argument list maps to exactly one of
the four outcomes (the four are mutually exclusive by constructor disjointness,
and `parse_args` is a function, so at most one holds; this theorem shows at
least one always does). -/
theorem C7_parse_args_total (args : List String) :
    (∃ f, parse_args args = .ok (f, none)) ∨
    (∃ f n, parse_args args = .ok (f, some n)) ∨
    parse_args args = .error ArgError.InvalidUsage ∨
    parse_args args = .error ArgError.InvalidLength := by
  cases h : parse_args args with
  | ok v =>
    obtain ⟨f, opt⟩ := v
    cases opt with
    | none => exact Or.inl ⟨f, rfl⟩
    | some n => exact Or.inr (Or.inl ⟨f, n, rfl⟩)
  | error e =>
    cases e with
    | InvalidUsage => exact Or.inr (Or.inr (Or.inl rfl))
    | InvalidLength => exact Or.inr (Or.inr (Or.inr rfl))

/-- Claim C5: two-element argument lists parse to the second element with no
byte limit; four-element lists `[prog, "-n", len, file]` whose third element
parses as a non-negative integer parse to the fourth element with that limit. -/
theorem C5_parse_args_success (prog file1 len file2 : String) (n : Nat)
    (h : parseUsize len = some n) :
    parse_args [prog, file1] = .ok (file1, none) ∧
    parse_args [prog, "-n", len, file2] = .ok (file2, some n) := by
  refine ⟨rfl, ?_⟩
  simp [parse_args, h]

/-- Witness for C5 at the spec's concrete scenarios. -/
theorem C5_parse_args_success_witness :
    parse_args ["prog", "file.txt"] = .ok ("file.txt", none) ∧
    parse_args ["prog", "-n", "100", "file.txt"] = .ok ("file.txt", some 100) :=
  C5_parse_args_success "prog" "file.txt" "100" "file.txt" 100 (by decide)

/-- Claim C6: `parse_args` yields `InvalidLength` exactly for four-element
lists `[p, "-n", len, file]` whose `len` fails to parse; every list that
matches neither recognized shape yields `InvalidUsage`, never `InvalidLength`. -/
theorem C6_error_priority (args : List String) :
    (parse_args args = .error ArgError.InvalidLength ↔
      ∃ p len file, args = [p, "-n", len, file] ∧ parseUsize len = none) ∧
    ((¬ ∃ p file, args = [p, file]) →
     (¬ ∃ p len file, args = [p, "-n", len, file]) →
      parse_args args = .error ArgError.InvalidUsage) := by
  rcases args with _ | ⟨a, _ | ⟨b, _ | ⟨c, _ | ⟨d, _ | ⟨e, rest⟩⟩⟩⟩⟩
  · exact ⟨by simp [parse_args], fun _ _ => rfl⟩
  · exact ⟨by simp [parse_args], fun _ _ => rfl⟩
  · refine ⟨by simp [parse_args], fun h1 _ => absurd ⟨a, b, rfl⟩ h1⟩
  · exact ⟨by simp [parse_args], fun _ _ => rfl⟩
  · by_cases hb : b = "-n"
    · subst hb
      cases hp : parseUsize c with
      | none =>
        constructor
        · constructor
          · intro _
            exact ⟨a, c, d, rfl, hp⟩
          · intro _
            simp [parse_args, hp]
        · intro _ h2
          exact absurd ⟨a, c, d, rfl⟩ h2
      | some v =>
        constructor
        · constructor
          · intro hcon
            simp [parse_args, hp] at hcon
          · rintro ⟨p, len, file, heq, hnone⟩
            injection heq with h1 heq
            injection heq with h2 heq
            injection heq with h3 heq
            subst h3
            rw [hp] at hnone
            exact Option.noConfusion hnone
        · intro _ h2
          exact absurd ⟨a, c, d, rfl⟩ h2
    · constructor
      · constructor
        · intro hcon
          simp [parse_args, hb] at hcon
        · rintro ⟨p, len, file, heq, hnone⟩
          injection heq with h1 heq
          injection heq with h2 heq
          exact absurd h2 hb
      · intro _ _
        simp [parse_args, hb]
  · exact ⟨by simp [parse_args], fun _ _ => rfl⟩

/-- Witness for C6: a failing length token gives `InvalidLength`, and a
shape mismatch gives `InvalidUsage`. -/
theorem C6_error_priority_witness :
    parse_args ["prog", "-n", "abc", "file.txt"] = .error ArgError.InvalidLength ∧
    parse_args ["prog", "-n", "file.txt"] = .error ArgError.InvalidUsage := by
  constructor
  · exact (C6_error_priority ["prog", "-n", "abc", "file.txt"]).1.mpr
      ⟨"prog", "abc", "file.txt", rfl, by decide⟩
  · exact (C6_error_priority ["prog", "-n", "file.txt"]).2
      (by rintro ⟨p, f, h⟩; simp at h)
      (by rintro ⟨p, l, f, h⟩; simp at h)

/-- Claim C4: formatting a byte sequence of length N produces exactly
`ceil(N/16)` newline-terminated lines (both as the number of pieces before the
trailing empty split and as the number of newline characters), each line except
possibly the last covering exactly 16 bytes, and for N = 0 the output is the
empty string. -/
theorem C4_line_count (buf : List Byte) (s : List Char) (hs : hexdump buf = some s) :
    (splitOnChar '\n' s).dropLast.length = (buf.length + 15) / 16 ∧
    s.count '\n' = (buf.length + 15) / 16 ∧
    (∀ c ∈ (chunksOf 16 buf).dropLast, c.length = 16) ∧
    (buf = [] → s = []) := by
  have h2 : (specLines buf).flatten = s :=
    Option.some.inj ((hexdump_eq_specLines buf).symm.trans hs)
  refine ⟨?_, ?_, ?_, ?_⟩
  · rw [← h2, splitOnChar_specLines, List.dropLast_concat]
    rw [List.length_map, List.enum_eq_enumFrom, List.enumFrom_length]
    rw [chunksOf_length (by omega)]
    omega
  · rw [← h2, specLines_flatten_count, chunksOf_length (by omega)]
    omega
  · intro c hcmem
    exact chunksOf_dropLast_mem (by omega) hcmem
  · intro hnil
    subst hnil
    rw [← h2]
    rfl

/-- Witness for C4 at the spec's concrete scenario `[0x00, 0x01, 0x02, 0x03]`. -/
theorem C4_line_count_witness :
    (splitOnChar '\n' "00000000 0100 0302\n".data).dropLast.length =
      (([0x00, 0x01, 0x02, 0x03] : List Byte).length + 15) / 16 ∧
    "00000000 0100 0302\n".data.count '\n' =
      (([0x00, 0x01, 0x02, 0x03] : List Byte).length + 15) / 16 ∧
    (∀ c ∈ (chunksOf 16 ([0x00, 0x01, 0x02, 0x03] : List Byte)).dropLast, c.length = 16) ∧
    (([0x00, 0x01, 0x02, 0x03] : List Byte) = [] → "00000000 0100 0302\n".data = []) :=
  C4_line_count [0x00, 0x01, 0x02, 0x03] "00000000 0100 0302\n".data (by decide)

/-- Claim C3 (amended): for every input and every zero-based line index `i` of
the output whose offset `i * 16` fits in 8 hexadecimal digits (`i * 16 < 2 ^
32`), the line begins with the offset `i * 16` rendered as exactly 8 lowercase
zero-padded hexadecimal digits.  The bound is necessary: Rust's `{:08x}` width
is a minimum, so offsets of `2 ^ 32` and above render with more than 8 digits
(see the counterexample). -/
theorem C3_offset_format (buf : List Byte) (s : List Char) (hs : hexdump buf = some s)
    (i : Nat) (hi : i < (splitOnChar '\n' s).dropLast.length) (hov : i * 16 < 2 ^ 32) :
    ∃ rest, (splitOnChar '\n' s).dropLast.getD i [] = hexPad 8 (i * 16) ++ rest ∧
      (hexPad 8 (i * 16)).length = 8 ∧
      ∀ c ∈ hexPad 8 (i * 16), isHexDigitChar c = true := by
  have h2 : (specLines buf).flatten = s :=
    Option.some.inj ((hexdump_eq_specLines buf).symm.trans hs)
  rw [← h2, splitOnChar_specLines, List.dropLast_concat] at hi ⊢
  have hi3 : i < (chunksOf 16 buf).length := by
    rw [List.length_map, List.enum_eq_enumFrom, List.enumFrom_length] at hi
    exact hi
  have hgd : ((chunksOf 16 buf).enum.map (fun r => specBody r.1 r.2)).getD i [] =
      specBody i ((chunksOf 16 buf).get ⟨i, hi3⟩) := by
    rw [List.getD_eq_getElem?_getD, List.getElem?_eq_getElem hi, Option.getD_some]
    rw [List.getElem_map]
    simp [List.enum_eq_enumFrom, List.getElem_enumFrom]
  rw [hgd]
  exact ⟨_, rfl, hexPad_eight_length hov, fun c hc => hexPad_hexChars hc⟩

/-- Witness for C3 at the spec's concrete scenario, line index 0. -/
theorem C3_offset_format_witness :
    ∃ rest, (splitOnChar '\n' "00000000 0100 0302\n".data).dropLast.getD 0 [] =
        hexPad 8 (0 * 16) ++ rest ∧
      (hexPad 8 (0 * 16)).length = 8 ∧
      ∀ c ∈ hexPad 8 (0 * 16), isHexDigitChar c = true :=
  C3_offset_format [0x00, 0x01, 0x02, 0x03] "00000000 0100 0302\n".data (by decide) 0
    (by decide) (by decide)

/-- Counterexample to claim C3 as stated: on an input of `2 ^ 32 + 16` zero
bytes the line at index `2 ^ 28` exists, but its offset `2 ^ 32` renders as 9
hexadecimal digits, not exactly 8, because Rust's `{:08x}` width is only a
minimum. -/
theorem C3_offset_format_cex :
    ¬ (∀ (buf : List Byte) (s : List Char), hexdump buf = some s →
        ∀ i, i < (splitOnChar '\n' s).dropLast.length →
          ∃ rest, (splitOnChar '\n' s).dropLast.getD i [] = hexPad 8 (i * 16) ++ rest ∧
            (hexPad 8 (i * 16)).length = 8 ∧
            ∀ c ∈ hexPad 8 (i * 16), isHexDigitChar c = true) := by
  intro h
  have hlen : (chunksOf 16 (List.replicate (2 ^ 32 + 16) (0 : Byte))).length =
      2 ^ 28 + 1 := by
    rw [chunksOf_length (by omega), List.length_replicate]
    omega
  have hi : 2 ^ 28 < (splitOnChar '\n'
      (specLines (List.replicate (2 ^ 32 + 16) (0 : Byte))).flatten).dropLast.length := by
    rw [splitOnChar_specLines, List.dropLast_concat, List.length_map,
      List.enum_eq_enumFrom, List.enumFrom_length, hlen]
    omega
  obtain ⟨rest, _, hlen8, _⟩ :=
    h (List.replicate (2 ^ 32 + 16) (0 : Byte)) _ (hexdump_eq_specLines _) (2 ^ 28) hi
  have h9 : (hexPad 8 (2 ^ 28 * 16)).length = 9 := by
    have he : (2 : Nat) ^ 28 * 16 = 2 ^ 32 := by norm_num
    rw [he]
    decide
  omega
